import Mathlib

/-!
Verification of the record-shape transformation core of streamlit-busyboard.

The development shallowly embeds the three components of the repository:
the dot-notation nesting engine of src/apps/csv_to_json.py and
src/pages/csv_to_json.py, the DataFrame record extraction, the JSON to
grid parser of src/apps/json_to_df.py, and the delimited-list normalizer
of src/apps/list_converter.py.  Python dictionaries are embedded as
association lists that preserve insertion order; dictionary update keeps
the position of an existing key and appends a fresh key at the end,
exactly as CPython dictionaries do.  Machine-level concerns do not arise:
all values are treated as opaque data.
-/

set_option maxRecDepth 4000

/-- A Python value that is either a scalar (opaque payload) or a nested
dictionary, as produced by the nesting engine.  The node constructor
carries an insertion-ordered association list. -/
inductive PTree (α : Type) where
  | leaf : α → PTree α
  | node : List (String × PTree α) → PTree α
deriving Repr

/-- Ordered-dictionary lookup: value of the first entry with the given
key, embedding Python dictionary read access. -/
def getKeyF {β : Type} : List (String × β) → String → Option β
  | [], _ => none
  | p :: rest, k => if p.1 == k then some p.2 else getKeyF rest k

/-- Ordered-dictionary update, embedding Python dictionary assignment:
an existing key keeps its position and gets the new value, a fresh key is
appended at the end. -/
def setKey {β : Type} : List (String × β) → String → β → List (String × β)
  | [], k, v => [(k, v)]
  | p :: rest, k, v => if p.1 == k then (k, v) :: rest else p :: setKey rest k v

/-- Character-level split on a separator character, embedding the Python
expression key.split(sep) for a one-character separator: the result
always has one more group than there are separator occurrences, and
groups may be empty. -/
def splitCharAux (c : Char) : List Char → List (List Char)
  | [] => [[]]
  | x :: xs =>
      match splitCharAux c xs with
      | [] => [[]]
      | g :: gs => if x == c then [] :: g :: gs else (x :: g) :: gs

/-- The Python expression key.split with a dot separator, lifted to
strings. -/
def splitKey (s : String) : List String :=
  (splitCharAux '.' s.data).map String.mk

/-- The Python membership test of a dot character inside a key. -/
def hasDot (s : String) : Bool := s.data.contains '.'

/-- The body of the dotted-key walk shared by both _nest_flat_record
implementations: walk or create intermediate dictionaries for every
segment but the last, then assign the final segment.  An intermediate
segment that is absent or holds a non-dictionary is replaced by a fresh
empty dictionary, and the final assignment overwrites whatever value is
present, exactly as the Python loop does. -/
def setPath {α : Type} : List (String × PTree α) → List String → α → List (String × PTree α)
  | t, [], _ => t
  | t, [k], v => setKey t k (PTree.leaf v)
  | t, k :: ps, v =>
      let sub := match getKeyF t k with
        | some (PTree.node m) => m
        | _ => []
      setKey t k (PTree.node (setPath sub ps v))

/-- Path lookup of a scalar leaf inside a nested dictionary. -/
def getPath {α : Type} : List (String × PTree α) → List String → Option α
  | _, [] => none
  | t, [k] =>
      match getKeyF t k with
      | some (PTree.leaf v) => some v
      | _ => none
  | t, k :: ps =>
      match getKeyF t k with
      | some (PTree.node m) => getPath m ps
      | _ => none

/-- Path lookup of a nested dictionary inside a nested dictionary.  The
empty path returns the dictionary itself. -/
def getNode {α : Type} : List (String × PTree α) → List String → Option (List (String × PTree α))
  | t, [] => some t
  | t, k :: ps =>
      match getKeyF t k with
      | some (PTree.node m) => getNode m ps
      | _ => none

namespace CsvToJsonApp

/-- The loop of _nest_flat_record in src/apps/csv_to_json.py, with the
accumulator made explicit.  A dotted key is inserted along its split
path.  A plain key raises ValueError when the key is already present and
holds a dictionary, and is assigned directly otherwise.  The error value
carries the offending key, which the Python message names. -/
def nestLoop {α : Type} : List (String × α) → List (String × PTree α) → Except String (List (String × PTree α))
  | [], acc => Except.ok acc
  | (key, value) :: rest, acc =>
      if hasDot key then nestLoop rest (setPath acc (splitKey key) value)
      else
        match getKeyF acc key with
        | some (PTree.node _) => Except.error key
        | _ => nestLoop rest (setKey acc key (PTree.leaf value))

/-- _nest_flat_record of src/apps/csv_to_json.py: convert a flat record
with dot-notation keys into a nested record, raising on a plain key that
collides with an already materialized nested dictionary. -/
def _nest_flat_record {α : Type} (flat : List (String × α)) : Except String (List (String × PTree α)) :=
  nestLoop flat []

end CsvToJsonApp

namespace CsvToJsonPage

/-- The loop of _nest_flat_record in src/pages/csv_to_json.py, with the
accumulator made explicit.  Identical to the apps variant except on a
plain key colliding with a nested dictionary: instead of raising, the
colliding scalar is merged into that dictionary under the synthetic
value key. -/
def nestLoop {α : Type} : List (String × α) → List (String × PTree α) → List (String × PTree α)
  | [], acc => acc
  | (key, value) :: rest, acc =>
      if hasDot key then nestLoop rest (setPath acc (splitKey key) value)
      else
        match getKeyF acc key with
        | some (PTree.node m) =>
            nestLoop rest (setKey acc key (PTree.node (setKey m "value" (PTree.leaf value))))
        | _ => nestLoop rest (setKey acc key (PTree.leaf value))

/-- _nest_flat_record of src/pages/csv_to_json.py: total nesting that
silently merges a colliding scalar under the synthetic value key. -/
def _nest_flat_record {α : Type} (flat : List (String × α)) : List (String × PTree α) :=
  nestLoop flat []

end CsvToJsonPage

/-- Pure insertion of a list of already split paths, the common core of
both nesting loops once no conflict occurs. -/
def setPaths {α : Type} : List (List String × α) → List (String × PTree α) → List (String × PTree α)
  | [], acc => acc
  | (ps, v) :: rest, acc => setPaths rest (setPath acc ps v)

/-- Modelled from the spec: the flatten direction of the dot-notation
engine, which the repository delegates to the pandas library and is
therefore absent from src.  Following section 4.2 of the spec, nested
records are walked recursively and path segments are joined with a dot;
leaves are kept as they are. -/
def flattenFields {α : Type} : List (String × PTree α) → List (String × α)
  | [] => []
  | (k, PTree.leaf v) :: rest => (k, v) :: flattenFields rest
  | (k, PTree.node m) :: rest =>
      (flattenFields m).map (fun p => (k ++ "." ++ p.1, p.2)) ++ flattenFields rest

/-- Well-formedness of a nested dictionary: keys are free of dots and
unique at every level.  Every dictionary the nesting engine builds from
a genuine flat record satisfies this. -/
def wfF {α : Type} : List (String × PTree α) → Bool
  | [] => true
  | (k, PTree.leaf _) :: rest =>
      !hasDot k && !(rest.any (fun p => p.1 == k)) && wfF rest
  | (k, PTree.node m) :: rest =>
      !hasDot k && !(rest.any (fun p => p.1 == k)) && wfF m && wfF rest

/-- Well-formedness of a single tree value. -/
def wfT {α : Type} : PTree α → Bool
  | PTree.leaf _ => true
  | PTree.node m => wfF m

/-- Every leaf of every entry satisfies the given predicate. -/
def leavesOkF {α : Type} (P : α → Bool) : List (String × PTree α) → Bool
  | [] => true
  | (_, PTree.leaf v) :: rest => P v && leavesOkF P rest
  | (_, PTree.node m) :: rest => leavesOkF P m && leavesOkF P rest

/-- Decidable prefix test on segment lists. -/
def isPfx : List String → List String → Bool
  | [], _ => true
  | _ :: _, [] => false
  | a :: as, b :: bs => a == b && isPfx as bs

/-- Independence of two split key paths: neither is a prefix of the
other.  This is the disjoint, non-colliding hypothesis of the round-trip
law. -/
abbrev indepP (a b : List String) : Prop := isPfx a b = false ∧ isPfx b a = false

section ListConverter

/-- The separator class of src/apps/list_converter.py: comma, tab,
carriage return, newline. -/
def isSep (c : Char) : Bool := c == ',' || c == '\t' || c == '\r' || c == '\n'

/-- The whitespace class stripped by the Python strip method, restricted
to the ASCII whitespace characters. -/
def isPyWS (c : Char) : Bool :=
  c == ' ' || c == '\t' || c == '\n' || c == '\r' || c == '\x0b' || c == '\x0c'

/-- The Python strip method on character lists: drop whitespace from
both ends. -/
def pyStripList (l : List Char) : List Char :=
  ((l.dropWhile isPyWS).reverse.dropWhile isPyWS).reverse

/-- The Python strip method on strings. -/
def pyStrip (s : String) : String := String.mk (pyStripList s.data)

/-- The regular-expression split of list_converter on any run of
separator characters: groups are the maximal separator-free stretches,
with an empty group at an end that begins or finishes with a separator,
and consecutive separators collapsed.  Processing from the right, a
separator opens a fresh empty group unless the next character is also a
separator, in which case the run is extended without a new group. -/
def splitRuns : List Char → List (List Char)
  | [] => [[]]
  | c :: cs =>
      let r := splitRuns cs
      if isSep c then
        match cs with
        | [] => [] :: r
        | d :: _ => if isSep d then r else [] :: r
      else
        match r with
        | [] => [[c]]
        | g :: gs => (c :: g) :: gs

/-- Tokenization steps one to two of convert_list: split on separator
runs, strip each token, discard tokens that strip to nothing. -/
def listItems (text : String) : List (List Char) :=
  ((splitRuns text.data).map pyStripList).filter (fun t => !t.isEmpty)

/-- The duplicate-removal loop of convert_list: keep the first
occurrence of each token, tracking the tokens seen so far. -/
def dedupLoop (seen : List (List Char)) : List (List Char) → List (List Char)
  | [] => []
  | it :: rest =>
      if seen.contains it then dedupLoop seen rest
      else it :: dedupLoop (it :: seen) rest

/-- The single-quote character. -/
def sqChar : Char := Char.ofNat 39

/-- The double-quote character. -/
def dqChar : Char := Char.ofNat 34

/-- The backslash character. -/
def bslChar : Char := Char.ofNat 92

/-- The opening-brace character. -/
def obrChar : Char := Char.ofNat 123

/-- The closing-brace character. -/
def cbrChar : Char := Char.ofNat 125

/-- The quoting step of convert_list: single quoting doubles embedded
single quotes, double quoting escapes embedded double quotes with a
backslash, anything else leaves tokens unchanged. -/
def applyQuote (quote : String) (items : List (List Char)) : List (List Char) :=
  if quote == "single" then
    items.map (fun it => sqChar :: ((it.map (fun c => if c == sqChar then [sqChar, sqChar] else [c])).flatten ++ [sqChar]))
  else if quote == "double" then
    items.map (fun it => dqChar :: ((it.map (fun c => if c == dqChar then [bslChar, dqChar] else [c])).flatten ++ [dqChar]))
  else items

/-- The wrapping step of convert_list: surround the joined core with
parentheses, brackets, braces, or nothing. -/
def wrapResult (wrapper : String) (result : List Char) : List Char :=
  if wrapper == "paren" then '(' :: (result ++ [')'])
  else if wrapper == "bracket" then '[' :: (result ++ [']'])
  else if wrapper == "brace" then obrChar :: (result ++ [cbrChar])
  else result

/-- convert_list of src/apps/list_converter.py.  The empty input string
returns the empty string immediately; otherwise the input is split,
stripped, filtered, optionally deduplicated, optionally quoted, joined
with comma-space, and optionally wrapped. -/
def convert_list (text : String) (remove_dupes : Bool) (quote : String) (wrapper : String) : String :=
  if text == "" then ""
  else
    let items := listItems text
    let items2 := if remove_dupes then dedupLoop [] items else items
    let items3 := applyQuote quote items2
    String.mk (wrapResult wrapper (List.intercalate [',', ' '] items3))

end ListConverter

section JsonToDf

/-- A decoded JSON value, as returned by the Python loads call. -/
inductive JVal where
  | null : JVal
  | bool : Bool → JVal
  | num : Int → JVal
  | str : String → JVal
  | arr : List JVal → JVal
  | obj : List (String × JVal) → JVal
deriving Repr

/-- The error taxonomy of the JSON to grid conversion, following
section 7 of the spec. -/
inductive PdError where
  | emptyInput : PdError
  | malformed : String → PdError
  | shapeMismatch : PdError
  | conversion : PdError
deriving Repr, DecidableEq

/-- A tabular grid: ordered column names and rows of cells, where an
absent cell is the none value. -/
structure Grid where
  cols : List String
  rows : List (List (Option JVal))
deriving Repr

/-- Test whether a decoded value is a JSON array. -/
def JVal.isArr : JVal → Bool
  | JVal.arr _ => true
  | _ => false

/-- The element list of a JSON array, empty for anything else. -/
def JVal.asArr : JVal → List JVal
  | JVal.arr l => l
  | _ => []

/-- Test whether a decoded value is a JSON object. -/
def JVal.isObj : JVal → Bool
  | JVal.obj _ => true
  | _ => false

/-- The field list of a JSON object, empty for anything else. -/
def JVal.asObj : JVal → List (String × JVal)
  | JVal.obj m => m
  | _ => []

/-- The length of the first column of a columnar mapping. -/
def columnLen (fields : List (String × JVal)) : Nat :=
  match fields with
  | [] => 0
  | f :: _ => f.2.asArr.length

/-- Modelled from the spec: building a grid from a columnar mapping,
as the pandas constructors do for a mapping of column name to column
values, which is library behaviour absent from src.  Per section 4.1
the mapping is treated directly as a grid, and columns of unequal
length fail with the shape-mismatch error. -/
def columnarGrid (fields : List (String × JVal)) : Except PdError Grid :=
  if fields.all (fun f => f.2.asArr.length == columnLen fields) then
    Except.ok
      ⟨fields.map (fun f => f.1),
       (List.range (columnLen fields)).map (fun i => fields.map (fun f => f.2.asArr.get? i))⟩
  else Except.error PdError.shapeMismatch

/-- Modelled from the spec: the dot-path flattening of one decoded
record used by the normalize path, which the repository delegates to
the pandas library.  Nested objects are walked recursively joining
segments with a dot; arrays and scalars are leaves. -/
def flattenJFields : List (String × JVal) → List (String × JVal)
  | [] => []
  | (k, JVal.obj m) :: rest =>
      (flattenJFields m).map (fun p => (k ++ "." ++ p.1, p.2)) ++ flattenJFields rest
  | (k, v) :: rest => (k, v) :: flattenJFields rest

/-- First-seen union of the keys of a list of flat records, the
deterministic column order of section 4.1. -/
def firstSeenKeys (rs : List (List (String × JVal))) : List String :=
  rs.foldl (fun acc r => r.foldl (fun acc2 kv => if acc2.contains kv.1 then acc2 else acc2 ++ [kv.1]) acc) []

/-- Modelled from the spec: the pandas json_normalize call on a list of
decoded records.  Every record is dot-path flattened, the flat key sets
are unioned in first-seen order into columns, and a row missing a key
gets an absent cell. -/
def normalizeRecords (rs : List (List (String × JVal))) : Grid :=
  let flats := rs.map flattenJFields
  let cols := firstSeenKeys flats
  ⟨cols, flats.map (fun r => cols.map (fun c => getKeyF r c))⟩

/-- Modelled from the spec: the pandas DataFrame constructor on a list
of decoded records, using top-level keys only and keeping nested values
opaque. -/
def dataFrameRecords (rs : List (List (String × JVal))) : Grid :=
  let cols := firstSeenKeys rs
  ⟨cols, rs.map (fun r => cols.map (fun c => getKeyF r c))⟩

/-- Modelled from the spec: json_normalize on an arbitrary decoded
value; anything but a list of objects is a conversion failure. -/
def jsonNormalizeData : JVal → Except PdError Grid
  | JVal.arr items =>
      if items.all (fun v => v.isObj) then Except.ok (normalizeRecords (items.map JVal.asObj))
      else Except.error PdError.conversion
  | _ => Except.error PdError.conversion

/-- Modelled from the spec: the DataFrame constructor on an arbitrary
decoded value; anything but a list of objects is a conversion failure,
which the caller turns into the documented fallback. -/
def dataFrameData : JVal → Except PdError Grid
  | JVal.arr items =>
      if items.all (fun v => v.isObj) then Except.ok (dataFrameRecords (items.map JVal.asObj))
      else Except.error PdError.conversion
  | _ => Except.error PdError.conversion

/-- The common tail of parse_json_to_df after the dictionary cases: the
normalize flag selects json_normalize, and the direct DataFrame
construction falls back to json_normalize when it fails. -/
def recordsTail (normalize : Bool) (data : JVal) : Except PdError Grid :=
  if normalize then jsonNormalizeData data
  else
    match dataFrameData data with
    | Except.ok g => Except.ok g
    | Except.error _ => jsonNormalizeData data

/-- The columnar test of parse_json_to_df: the decoded dictionary is
truthy, that is non-empty, and every value in it is a list. -/
def isColumnarDict (fields : List (String × JVal)) : Bool :=
  !fields.isEmpty && fields.all (fun f => f.2.isArr)

/-- parse_json_to_df of src/apps/json_to_df.py.  The JSON decoder is an
explicit parameter standing for the Python loads call, which is library
behaviour external to the repository.  The raw text is stripped and an
empty result raises the empty-input ValueError; a decode failure
surfaces as the malformed error; a non-empty decoded dictionary whose
values are all lists is treated as columnar; any other dictionary is
wrapped into a one-element list; the tail dispatches on the normalize
flag with the documented fallback. -/
def parse_json_to_df (loads : String → Except String JVal) (raw_text : String) (normalize : Bool) : Except PdError Grid :=
  if pyStrip raw_text == "" then Except.error PdError.emptyInput
  else
    match loads (pyStrip raw_text) with
    | Except.error m => Except.error (PdError.malformed m)
    | Except.ok data =>
        match data with
        | JVal.obj fields =>
            if isColumnarDict fields then columnarGrid fields
            else recordsTail normalize (JVal.arr [JVal.obj fields])
        | _ => recordsTail normalize data

end JsonToDf

section RecordsFromDf

/-- One fillna step: an absent pandas cell becomes the empty string,
a present cell keeps its value, and afterwards every cell is present. -/
def fillCell (c : Option JVal) : Option JVal :=
  some (c.getD (JVal.str ""))

/-- The per-record nesting map of _records_from_df with Python list
comprehension semantics: records are nested left to right and the first
ValueError aborts the whole conversion. -/
def mapNest (rs : List (List (String × Option JVal))) : Except String (List (List (String × PTree (Option JVal)))) :=
  match rs with
  | [] => Except.ok []
  | r :: rest =>
      match CsvToJsonApp._nest_flat_record r with
      | Except.error e => Except.error e
      | Except.ok t =>
          match mapNest rest with
          | Except.error e => Except.error e
          | Except.ok ts => Except.ok (t :: ts)

/-- _records_from_df of src/apps/csv_to_json.py on an embedded grid:
absent cells are replaced by the empty string by fillna, rows are paired
with the header as flat records, and the observe flag selects nesting.
A flat result is embedded with leaf values so both branches share one
return type. -/
def _records_from_df (header : List String) (rows : List (List (Option JVal))) (observe_nested : Bool) :
    Except String (List (List (String × PTree (Option JVal)))) :=
  let clean := rows.map (fun row => row.map fillCell)
  let records := clean.map (fun row => header.zip row)
  if observe_nested then mapNest records
  else Except.ok (records.map (fun r => r.map (fun p => (p.1, PTree.leaf p.2))))

end RecordsFromDf

/-- A single tree value whose every leaf satisfies the predicate. -/
def leavesOkT {α : Type} (P : α → Bool) : PTree α → Bool
  | PTree.leaf v => P v
  | PTree.node m => leavesOkF P m

/-- Joining character groups with a separator character, the inverse of
splitCharAux, used to state its round-trip laws. -/
def joinSegs (c : Char) : List (List Char) → List Char
  | [] => []
  | [g] => g
  | g :: gs => g ++ c :: joinSegs c gs

theorem string_mk_data (s : String) : String.mk s.data = s := by
  cases s
  rfl

/-- C1.  The claim states that on a record holding both a plain key and
a dotted extension of it the apps nesting fails in either insertion
order and never silently loses data.  The code does fail when the
dotted key comes first, but when the plain key comes first the walk of
the dotted key silently replaces the scalar with a fresh dictionary,
losing the value, which contradicts the docstring of the function. -/
theorem c1_plain_first_overwrites :
    CsvToJsonApp._nest_flat_record [("address", "x"), ("address.city", "y")] =
      Except.ok [("address", PTree.node [("city", PTree.leaf "y")])] ∧
    CsvToJsonApp._nest_flat_record [("address.city", "y"), ("address", "x")] =
      Except.error "address" := by
  exact ⟨rfl, rfl⟩

/-- C5 counterexample.  The two nesting implementations are not
extensionally equal: on a record with a dotted key followed by its
plain prefix, the apps version fails with the offending key while the
pages version succeeds and merges the scalar under the synthetic value
key. -/
theorem c5_counterexample :
    CsvToJsonApp._nest_flat_record [("a.b", "v"), ("a", "w")] = Except.error "a" ∧
    CsvToJsonPage._nest_flat_record [("a.b", "v"), ("a", "w")] =
      [("a", PTree.node [("b", PTree.leaf "v"), ("value", PTree.leaf "w")])] := by
  exact ⟨rfl, rfl⟩

theorem nestLoop_agree {α : Type} (flat : List (String × α)) :
    ∀ (acc : List (String × PTree α)) (t : List (String × PTree α)),
      CsvToJsonApp.nestLoop flat acc = Except.ok t → CsvToJsonPage.nestLoop flat acc = t := by
  induction flat with
  | nil =>
      intro acc t h
      simp only [CsvToJsonApp.nestLoop, Except.ok.injEq] at h
      simpa [CsvToJsonPage.nestLoop] using h
  | cons kv rest ih =>
      intro acc t h
      obtain ⟨key, value⟩ := kv
      by_cases hd : hasDot key
      · simp only [CsvToJsonApp.nestLoop, hd, if_pos] at h
        simpa [CsvToJsonPage.nestLoop, hd] using ih _ _ h
      · simp only [CsvToJsonApp.nestLoop, hd, if_neg, Bool.false_eq_true] at h
        cases hk : getKeyF acc key with
        | none =>
            rw [hk] at h
            simpa [CsvToJsonPage.nestLoop, hd, hk] using ih _ _ h
        | some tv =>
            cases tv with
            | leaf v =>
                rw [hk] at h
                simpa [CsvToJsonPage.nestLoop, hd, hk] using ih _ _ h
            | node m =>
                rw [hk] at h
                exact absurd h (by simp)

/-- C5 amended.  Whenever the apps implementation of _nest_flat_record
succeeds, the pages implementation returns exactly the same nested
record; the two diverge precisely on the inputs the apps version
rejects. -/
theorem c5_agree_on_success {α : Type} (flat : List (String × α)) (t : List (String × PTree α))
    (h : CsvToJsonApp._nest_flat_record flat = Except.ok t) :
    CsvToJsonPage._nest_flat_record flat = t :=
  nestLoop_agree flat [] t h

/-- C5 witness: the amended agreement applied to a concrete record the
apps version accepts. -/
theorem c5_agree_witness :
    CsvToJsonPage._nest_flat_record [("x", "1"), ("a.b", "2")] =
      [("x", PTree.leaf "1"), ("a", PTree.node [("b", PTree.leaf "2")])] :=
  c5_agree_on_success [("x", "1"), ("a.b", "2")]
    [("x", PTree.leaf "1"), ("a", PTree.node [("b", PTree.leaf "2")])] rfl

/-- C6.  The worked example of the spec: splitting on separator runs,
trimming, dropping empty tokens, deduplicating to first occurrences in
order, single quoting, joining with comma-space and wrapping in
parentheses. -/
theorem c6_convert_list_eval :
    convert_list "a, b,,a\n c" true "single" "paren" =
      String.mk ['(', sqChar, 'a', sqChar, ',', ' ', sqChar, 'b', sqChar, ',', ' ',
        sqChar, 'c', sqChar, ')'] := by
  rfl

/-- C4 counterexample.  The claim states that the empty input with the
bracket wrap mode yields the wrapped empty core.  The code returns the
empty string unconditionally on the empty input, before any wrapping. -/
theorem c4_counterexample :
    convert_list "" false "none" "bracket" = "" ∧
    convert_list "" false "none" "bracket" ≠ "[]" := by
  exact ⟨rfl, by decide⟩

/-- C4 amended.  The empty input string short-circuits to the empty
string with no wrapper; every other input whose tokens all vanish after
splitting, trimming and filtering yields the wrapper applied to the
empty core. -/
theorem c4_empty_tokens (d : Bool) (q w text : String)
    (hne : text ≠ "") (hitems : listItems text = []) :
    convert_list text d q w = String.mk (wrapResult w []) := by
  have hbe : (text == "") = false := by
    simp [hne]
  unfold convert_list
  rw [hbe]
  simp only [Bool.false_eq_true, if_false, hitems]
  have hd : (if d then dedupLoop [] [] else []) = [] := by
    cases d <;> simp [dedupLoop]
  rw [hd]
  have hq : applyQuote q [] = [] := by
    unfold applyQuote
    split <;> simp
  rw [hq]
  rfl

/-- C4 witness: a one-separator input has no tokens yet still receives
the bracket wrapper. -/
theorem c4_empty_tokens_witness :
    ("," : String) ≠ "" ∧ listItems "," = [] ∧
      convert_list "," false "none" "bracket" = String.mk (wrapResult "bracket" []) :=
  ⟨by decide, rfl, c4_empty_tokens false "none" "bracket" "," (by decide) rfl⟩

/-- C8.  On a grid with a header row and no data rows the record
extraction returns the empty sequence and never an error, for either
value of the nesting flag. -/
theorem c8_header_only (header : List String) (observe : Bool) :
    _records_from_df header [] observe = Except.ok [] := by
  cases observe <;> rfl

theorem columnarGrid_ne_emptyInput (fields : List (String × JVal)) :
    columnarGrid fields ≠ Except.error PdError.emptyInput := by
  unfold columnarGrid
  split <;> simp

theorem jsonNormalizeData_ne_emptyInput (data : JVal) :
    jsonNormalizeData data ≠ Except.error PdError.emptyInput := by
  unfold jsonNormalizeData
  split
  · split <;> simp
  · simp

theorem dataFrameData_ne_emptyInput (data : JVal) :
    dataFrameData data ≠ Except.error PdError.emptyInput := by
  unfold dataFrameData
  split
  · split <;> simp
  · simp

theorem recordsTail_ne_emptyInput (n : Bool) (data : JVal) :
    recordsTail n data ≠ Except.error PdError.emptyInput := by
  unfold recordsTail
  split
  · exact jsonNormalizeData_ne_emptyInput data
  · split
    · simp
    · exact jsonNormalizeData_ne_emptyInput data

theorem parse_ne_emptyInput_of_strip_ne (loads : String → Except String JVal) (raw : String)
    (n : Bool) (h : pyStrip raw ≠ "") :
    parse_json_to_df loads raw n ≠ Except.error PdError.emptyInput := by
  have hbe : (pyStrip raw == "") = false := by
    simp [h]
  unfold parse_json_to_df
  rw [hbe]
  simp only [Bool.false_eq_true, if_false]
  cases hl : loads (pyStrip raw) with
  | error m => simp
  | ok data =>
      cases data with
      | obj fields =>
          simp only []
          split
          · exact columnarGrid_ne_emptyInput fields
          · exact recordsTail_ne_emptyInput n (JVal.arr [JVal.obj fields])
      | null => exact recordsTail_ne_emptyInput n JVal.null
      | bool b => exact recordsTail_ne_emptyInput n (JVal.bool b)
      | num i => exact recordsTail_ne_emptyInput n (JVal.num i)
      | str s => exact recordsTail_ne_emptyInput n (JVal.str s)
      | arr l => exact recordsTail_ne_emptyInput n (JVal.arr l)

/-- C9.  The parse fails with the empty-input error exactly when the
raw text strips to the empty string, whatever the decoder and the
normalize flag do; in particular the empty string and a blank string
both fail that way. -/
theorem c9_empty_input (loads : String → Except String JVal) (raw : String) (n : Bool) :
    (parse_json_to_df loads raw n = Except.error PdError.emptyInput ↔ pyStrip raw = "") ∧
    parse_json_to_df loads "" n = Except.error PdError.emptyInput ∧
    parse_json_to_df loads "   " n = Except.error PdError.emptyInput := by
  refine ⟨⟨fun h => ?_, fun h => ?_⟩, ?_, ?_⟩
  · by_contra hne
    exact parse_ne_emptyInput_of_strip_ne loads raw n hne h
  · unfold parse_json_to_df
    rw [show (pyStrip raw == "") = true by simp [h]]
    rfl
  · rfl
  · rfl

/-- C3.  On the columnar input with columns a and b holding the pairs
one-two and three-four, the parse under the normalize flag returns the
two-row grid with rows one-three and two-four; and in general a decoded
non-empty mapping whose every value is a sequence is handed directly to
the columnar grid construction, for either flag. -/
theorem c3_columnar (loads : String → Except String JVal) (n : Bool)
    (hl : loads "\x7b\"a\":[1,2],\"b\":[3,4]\x7d" =
      Except.ok (JVal.obj [("a", JVal.arr [JVal.num 1, JVal.num 2]),
        ("b", JVal.arr [JVal.num 3, JVal.num 4])])) :
    parse_json_to_df loads "\x7b\"a\":[1,2],\"b\":[3,4]\x7d" true =
      Except.ok ⟨["a", "b"],
        [[some (JVal.num 1), some (JVal.num 3)], [some (JVal.num 2), some (JVal.num 4)]]⟩ ∧
    (∀ (raw : String) (fields : List (String × JVal)),
      pyStrip raw ≠ "" → loads (pyStrip raw) = Except.ok (JVal.obj fields) →
      isColumnarDict fields = true →
      parse_json_to_df loads raw n = columnarGrid fields) := by
  constructor
  · have hstrip : pyStrip "\x7b\"a\":[1,2],\"b\":[3,4]\x7d" = "\x7b\"a\":[1,2],\"b\":[3,4]\x7d" := by
      rfl
    unfold parse_json_to_df
    rw [hstrip]
    rw [show ("\x7b\"a\":[1,2],\"b\":[3,4]\x7d" == "") = false by decide]
    simp only [Bool.false_eq_true, if_false]
    rw [hl]
    rfl
  · intro raw fields hne hl2 hcol
    have hbe : (pyStrip raw == "") = false := by
      simp [hne]
    unfold parse_json_to_df
    rw [hbe]
    simp only [Bool.false_eq_true, if_false]
    rw [hl2]
    simp only [hcol, if_pos]

/-- C3 witness: the concrete columnar decode discharges the decoder
hypothesis. -/
theorem c3_columnar_witness :
    parse_json_to_df
      (fun _ => Except.ok (JVal.obj [("a", JVal.arr [JVal.num 1, JVal.num 2]),
        ("b", JVal.arr [JVal.num 3, JVal.num 4])]))
      "\x7b\"a\":[1,2],\"b\":[3,4]\x7d" true =
      Except.ok ⟨["a", "b"],
        [[some (JVal.num 1), some (JVal.num 3)], [some (JVal.num 2), some (JVal.num 4)]]⟩ :=
  (c3_columnar
    (fun _ => Except.ok (JVal.obj [("a", JVal.arr [JVal.num 1, JVal.num 2]),
      ("b", JVal.arr [JVal.num 3, JVal.num 4])])) true rfl).1

/-- C10.  The columnar branch of parse_json_to_df is taken exactly on a
decoded non-empty mapping whose every value is a list; the empty JSON
object is not columnar, is wrapped as a one-element record sequence,
and yields a one-row grid with no columns and no error under either
flag. -/
theorem c10_empty_object (loads : String → Except String JVal) (n : Bool) :
    (loads "\x7b\x7d" = Except.ok (JVal.obj []) →
      parse_json_to_df loads "\x7b\x7d" n = Except.ok ⟨[], [[]]⟩) ∧
    (∀ (raw : String) (fields : List (String × JVal)),
      pyStrip raw ≠ "" → loads (pyStrip raw) = Except.ok (JVal.obj fields) →
      (isColumnarDict fields = true → parse_json_to_df loads raw n = columnarGrid fields) ∧
      (isColumnarDict fields = false →
        parse_json_to_df loads raw n = recordsTail n (JVal.arr [JVal.obj fields]))) := by
  constructor
  · intro hl
    unfold parse_json_to_df
    rw [show pyStrip "\x7b\x7d" = "\x7b\x7d" from rfl]
    rw [show ("\x7b\x7d" == "") = false by decide]
    simp only [Bool.false_eq_true, if_false]
    rw [hl]
    cases n <;>
      simp [recordsTail, jsonNormalizeData, dataFrameData, normalizeRecords, dataFrameRecords,
        firstSeenKeys, flattenJFields, JVal.isObj, JVal.asObj, isColumnarDict, columnarGrid]
  · intro raw fields hne hl2
    have hbe : (pyStrip raw == "") = false := by
      simp [hne]
    constructor
    · intro hcol
      unfold parse_json_to_df
      rw [hbe]
      simp only [Bool.false_eq_true, if_false]
      rw [hl2]
      simp only [hcol, if_pos]
    · intro hcol
      unfold parse_json_to_df
      rw [hbe]
      simp only [Bool.false_eq_true, if_false]
      rw [hl2]
      simp only [hcol, Bool.false_eq_true, if_false]

/-- C10 witness: the constant decoder returning the empty object
discharges both hypotheses at the concrete input. -/
theorem c10_empty_object_witness :
    parse_json_to_df (fun _ => Except.ok (JVal.obj [])) "\x7b\x7d" true =
      Except.ok ⟨[], [[]]⟩ :=
  (c10_empty_object (fun _ => Except.ok (JVal.obj [])) true).1 rfl

theorem fillCell_isSome (c : Option JVal) : (fillCell c).isSome = true := rfl

theorem leavesOkF_getKey {α : Type} (P : α → Bool) (t : List (String × PTree α)) (k : String)
    (tv : PTree α) (h : leavesOkF P t = true) (hget : getKeyF t k = some tv) :
    leavesOkT P tv = true := by
  induction t with
  | nil => simp [getKeyF] at hget
  | cons p rest ih =>
      obtain ⟨k1, tv1⟩ := p
      by_cases hk : (k1 == k) = true
      · simp only [getKeyF, hk, if_pos, Option.some.injEq] at hget
        subst hget
        cases tv1 with
        | leaf v =>
            simp [leavesOkF] at h
            simp [leavesOkT, h]
        | node m =>
            simp [leavesOkF] at h
            simp [leavesOkT, h]
      · simp only [getKeyF, hk, Bool.false_eq_true, if_false] at hget
        cases tv1 with
        | leaf v =>
            simp [leavesOkF] at h
            exact ih h.2 hget
        | node m =>
            simp [leavesOkF] at h
            exact ih h.2 hget

theorem leavesOkF_setKey {α : Type} (P : α → Bool) (t : List (String × PTree α)) (k : String)
    (v : PTree α) (h : leavesOkF P t = true) (hv : leavesOkT P v = true) :
    leavesOkF P (setKey t k v) = true := by
  induction t with
  | nil =>
      cases v with
      | leaf w => simpa [setKey, leavesOkF, leavesOkT] using hv
      | node m => simpa [setKey, leavesOkF, leavesOkT] using hv
  | cons p rest ih =>
      obtain ⟨k1, tv1⟩ := p
      by_cases hk : (k1 == k) = true
      · cases tv1 with
        | leaf w =>
            simp [leavesOkF] at h
            cases v with
            | leaf w2 => simpa [setKey, hk, leavesOkF, leavesOkT, h.2] using hv
            | node m2 => simpa [setKey, hk, leavesOkF, leavesOkT, h.2] using hv
        | node m =>
            simp [leavesOkF] at h
            cases v with
            | leaf w2 => simpa [setKey, hk, leavesOkF, leavesOkT, h.2] using hv
            | node m2 => simpa [setKey, hk, leavesOkF, leavesOkT, h.2] using hv
      · cases tv1 with
        | leaf w =>
            simp [leavesOkF] at h
            simp [setKey, hk, leavesOkF, h.1, ih h.2]
        | node m =>
            simp [leavesOkF] at h
            simp [setKey, hk, leavesOkF, h.1, ih h.2]

theorem leavesOkF_setPath {α : Type} (P : α → Bool) (ps : List String) :
    ∀ (t : List (String × PTree α)) (v : α),
      leavesOkF P t = true → P v = true → leavesOkF P (setPath t ps v) = true := by
  induction ps with
  | nil => intro t v ht _; simpa [setPath] using ht
  | cons k ps' ih =>
      intro t v ht hv
      cases ps' with
      | nil =>
          simpa [setPath] using leavesOkF_setKey P t k (PTree.leaf v) ht (by simpa [leavesOkT] using hv)
      | cons k2 ps'' =>
          simp only [setPath]
          have hsub : leavesOkF P (match getKeyF t k with
              | some (PTree.node m) => m
              | _ => []) = true := by
            cases hget : getKeyF t k with
            | none => simp [leavesOkF]
            | some tv =>
                cases tv with
                | leaf w => simp [leavesOkF]
                | node m =>
                    have := leavesOkF_getKey P t k (PTree.node m) ht hget
                    simpa [leavesOkT] using this
          exact leavesOkF_setKey P t k _ ht (by simpa [leavesOkT] using ih _ v hsub hv)

theorem nestLoop_leaves {α : Type} (P : α → Bool) (flat : List (String × α)) :
    ∀ (acc t : List (String × PTree α)),
      CsvToJsonApp.nestLoop flat acc = Except.ok t → leavesOkF P acc = true →
      (∀ kv ∈ flat, P kv.2 = true) → leavesOkF P t = true := by
  induction flat with
  | nil =>
      intro acc t h hacc _
      simp only [CsvToJsonApp.nestLoop, Except.ok.injEq] at h
      subst h
      exact hacc
  | cons kv rest ih =>
      intro acc t h hacc hall
      obtain ⟨key, value⟩ := kv
      have hval : P value = true := hall (key, value) (by simp)
      have hrest : ∀ kv2 ∈ rest, P kv2.2 = true := fun kv2 hm => hall kv2 (by simp [hm])
      by_cases hd : hasDot key
      · simp only [CsvToJsonApp.nestLoop, hd, if_pos] at h
        exact ih _ t h (leavesOkF_setPath P (splitKey key) acc value hacc hval) hrest
      · simp only [CsvToJsonApp.nestLoop, hd, Bool.false_eq_true, if_false] at h
        cases hget : getKeyF acc key with
        | none =>
            rw [hget] at h
            exact ih _ t h
              (leavesOkF_setKey P acc key (PTree.leaf value) hacc (by simpa [leavesOkT] using hval))
              hrest
        | some tv =>
            cases tv with
            | leaf w =>
                rw [hget] at h
                exact ih _ t h
                  (leavesOkF_setKey P acc key (PTree.leaf value) hacc (by simpa [leavesOkT] using hval))
                  hrest
            | node m =>
                rw [hget] at h
                exact absurd h (by simp)

theorem mapNest_leaves (P : Option JVal → Bool) (rs : List (List (String × Option JVal))) :
    ∀ ts, mapNest rs = Except.ok ts →
      (∀ r ∈ rs, ∀ kv ∈ r, P kv.2 = true) →
      ∀ t ∈ ts, leavesOkF P t = true := by
  induction rs with
  | nil =>
      intro ts h _
      simp only [mapNest, Except.ok.injEq] at h
      subst h
      simp
  | cons r rest ih =>
      intro ts h hall
      cases hr : CsvToJsonApp._nest_flat_record r with
      | error e => simp [mapNest, hr] at h
      | ok t1 =>
          cases hrest : mapNest rest with
          | error e => simp [mapNest, hr, hrest] at h
          | ok ts1 =>
              simp only [mapNest, hr, hrest, Except.ok.injEq] at h
              subst h
              intro t ht
              rcases List.mem_cons.mp ht with h1 | h2
              · subst h1
                exact nestLoop_leaves P r [] t hr (by simp [leavesOkF])
                  (hall r (by simp))
              · exact ih ts1 hrest (fun r2 hm kv hkv => hall r2 (by simp [hm]) kv hkv) t h2

theorem leavesOkF_of_leaf_map {α : Type} (P : α → Bool) (r : List (String × α))
    (h : ∀ kv ∈ r, P kv.2 = true) :
    leavesOkF P (r.map (fun p => (p.1, PTree.leaf p.2))) = true := by
  induction r with
  | nil => simp [leavesOkF]
  | cons kv rest ih =>
      simp only [List.map_cons, leavesOkF, Bool.and_eq_true]
      exact ⟨h kv (by simp), ih (fun kv2 hm => h kv2 (by simp [hm]))⟩

theorem zip_fill_isSome (header : List String) (row : List (Option JVal)) :
    ∀ kv ∈ header.zip (row.map fillCell), kv.2.isSome = true := by
  intro kv hkv
  have h2 : kv.2 ∈ row.map fillCell := (List.of_mem_zip hkv).2
  obtain ⟨c, _, hc⟩ := List.mem_map.mp h2
  rw [← hc]
  exact fillCell_isSome c

/-- C7.  Every record the DataFrame-to-records conversion returns has
every leaf value present: the fillna step replaces each absent cell
with the empty string before nesting, and nesting introduces no absent
values, under either setting of the nesting flag. -/
theorem c7_no_absent_values (header : List String) (rows : List (List (Option JVal)))
    (observe : Bool) (recs : List (List (String × PTree (Option JVal))))
    (h : _records_from_df header rows observe = Except.ok recs) :
    ∀ rec ∈ recs, leavesOkF (fun c => c.isSome) rec = true := by
  have hrecords : ∀ r ∈ (rows.map (fun row => row.map fillCell)).map (fun row => header.zip row),
      ∀ kv ∈ r, kv.2.isSome = true := by
    intro r hr kv hkv
    obtain ⟨row2, hrow2, hz⟩ := List.mem_map.mp hr
    obtain ⟨row, _, hrow⟩ := List.mem_map.mp hrow2
    subst hz
    rw [← hrow] at hkv
    exact zip_fill_isSome header row kv hkv
  cases observe with
  | true =>
      simp only [_records_from_df, if_pos] at h
      exact mapNest_leaves (fun c => c.isSome) _ recs h hrecords
  | false =>
      simp only [_records_from_df, Bool.false_eq_true, if_false, Except.ok.injEq] at h
      subst h
      intro rec hrec
      obtain ⟨r, hr, hmap⟩ := List.mem_map.mp hrec
      rw [← hmap]
      exact leavesOkF_of_leaf_map _ r (hrecords r hr)

/-- C7 witness: a one-column grid with an absent cell nests to a record
whose single leaf is present. -/
theorem c7_no_absent_values_witness :
    leavesOkF (fun c => c.isSome) [("a", PTree.leaf (some (JVal.str "")))] = true :=
  c7_no_absent_values ["a"] [[none]] true [[("a", PTree.leaf (some (JVal.str "")))]] rfl
    [("a", PTree.leaf (some (JVal.str "")))] (by simp)

theorem splitCharAux_ne_nil (c : Char) (l : List Char) : splitCharAux c l ≠ [] := by
  cases l with
  | nil => simp [splitCharAux]
  | cons x xs =>
      simp only [splitCharAux]
      cases h : splitCharAux c xs with
      | nil => simp
      | cons g gs =>
          by_cases hx : (x == c) = true <;> simp [hx]

theorem splitKey_ne_nil (s : String) : splitKey s ≠ [] := by
  simp [splitKey]
  exact splitCharAux_ne_nil '.' s.data

theorem joinSegs_cons_cons (c : Char) (g g2 : List Char) (gs : List (List Char)) :
    joinSegs c (g :: g2 :: gs) = g ++ c :: joinSegs c (g2 :: gs) := rfl

theorem joinSegs_splitCharAux (c : Char) (l : List Char) :
    joinSegs c (splitCharAux c l) = l := by
  induction l with
  | nil => rfl
  | cons x xs ih =>
      simp only [splitCharAux]
      cases h : splitCharAux c xs with
      | nil => exact absurd h (splitCharAux_ne_nil c xs)
      | cons g gs =>
          rw [h] at ih
          by_cases hx : (x == c) = true
          · have hxc : x = c := by simpa using hx
            simp only [hx, if_pos, joinSegs_cons_cons, List.nil_append]
            rw [ih, hxc]
          · simp only [hx, Bool.false_eq_true, if_false]
            cases gs with
            | nil => simp only [joinSegs] at ih ⊢; rw [ih]
            | cons g2 gs2 =>
                rw [joinSegs_cons_cons, List.cons_append]
                rw [joinSegs_cons_cons] at ih
                rw [ih]

theorem splitCharAux_no_sep (c : Char) (l : List Char) :
    ∀ g ∈ splitCharAux c l, c ∉ g := by
  induction l with
  | nil => simp [splitCharAux]
  | cons x xs ih =>
      simp only [splitCharAux]
      cases h : splitCharAux c xs with
      | nil => simp
      | cons g gs =>
          rw [h] at ih
          by_cases hx : (x == c) = true
          · simp only [hx, if_pos]
            intro g2 hg2
            rcases List.mem_cons.mp hg2 with h1 | h2
            · subst h1; simp
            · exact ih g2 h2
          · simp only [hx, Bool.false_eq_true, if_false]
            intro g2 hg2
            rcases List.mem_cons.mp hg2 with h1 | h2
            · subst h1
              intro hmem
              have hxc : x ≠ c := by simpa using hx
              rcases List.mem_cons.mp hmem with h3 | h4
              · exact hxc h3.symm
              · exact ih g (by simp) h4
            · exact ih g2 (by simp [h2])

theorem splitCharAux_of_not_mem (c : Char) (l : List Char) (h : c ∉ l) :
    splitCharAux c l = [l] := by
  induction l with
  | nil => rfl
  | cons x xs ih =>
      have hx : (x == c) = false := by
        simp only [List.mem_cons, not_or] at h
        exact beq_eq_false_iff_ne.mpr (fun e => h.1 e.symm)
      have hxs : c ∉ xs := by
        simp only [List.mem_cons, not_or] at h
        exact h.2
      simp only [splitCharAux, ih hxs, hx, Bool.false_eq_true, if_false]

theorem splitCharAux_append_sep (c : Char) (g : List Char) (rest : List Char) (hg : c ∉ g) :
    splitCharAux c (g ++ c :: rest) = g :: splitCharAux c rest := by
  induction g with
  | nil =>
      simp only [List.nil_append, splitCharAux]
      cases h : splitCharAux c rest with
      | nil => exact absurd h (splitCharAux_ne_nil c rest)
      | cons g2 gs2 => simp
  | cons x xs ih =>
      have hx : (x == c) = false := by
        simp only [List.mem_cons, not_or] at hg
        exact beq_eq_false_iff_ne.mpr (fun e => hg.1 e.symm)
      have hxs : c ∉ xs := by
        simp only [List.mem_cons, not_or] at hg
        exact hg.2
      simp only [List.cons_append, List.append_eq, splitCharAux, ih hxs, hx, Bool.false_eq_true,
        if_false]

theorem splitCharAux_joinSegs (c : Char) (segs : List (List Char)) (hne : segs ≠ [])
    (hfree : ∀ g ∈ segs, c ∉ g) : splitCharAux c (joinSegs c segs) = segs := by
  induction segs with
  | nil => exact absurd rfl hne
  | cons g gs ih =>
      cases gs with
      | nil =>
          simp only [joinSegs]
          exact splitCharAux_of_not_mem c g (hfree g (by simp))
      | cons g2 gs2 =>
          rw [joinSegs_cons_cons]
          rw [splitCharAux_append_sep c g _ (hfree g (by simp))]
          rw [ih (by simp) (fun g3 h3 => hfree g3 (by simp [h3]))]

theorem data_mk (l : List Char) : (String.mk l).data = l := rfl

theorem splitKey_inj (a b : String) (h : splitKey a = splitKey b) : a = b := by
  have hdata : splitCharAux '.' a.data = splitCharAux '.' b.data := by
    have hmap := congrArg (List.map String.data) h
    have hid : String.data ∘ String.mk = id := funext (fun l => rfl)
    simp only [splitKey, List.map_map, hid, List.map_id] at hmap
    exact hmap
  have := congrArg (joinSegs '.') hdata
  rw [joinSegs_splitCharAux, joinSegs_splitCharAux] at this
  exact String.ext this

theorem hasDot_false_iff (s : String) : hasDot s = false ↔ ('.' : Char) ∉ s.data := by
  simp [hasDot]

theorem splitKey_of_not_hasDot (s : String) (h : hasDot s = false) : splitKey s = [s] := by
  have : ('.' : Char) ∉ s.data := (hasDot_false_iff s).mp h
  simp [splitKey, splitCharAux_of_not_mem '.' s.data this, string_mk_data]

theorem data_append3 (k q : String) : (k ++ "." ++ q).data = k.data ++ '.' :: q.data := by
  rw [String.data_append, String.data_append]
  simp

theorem splitKey_cons_of_not_hasDot (k q : String) (h : hasDot k = false) :
    splitKey (k ++ "." ++ q) = k :: splitKey q := by
  have : ('.' : Char) ∉ k.data := (hasDot_false_iff k).mp h
  simp only [splitKey, data_append3, splitCharAux_append_sep '.' k.data q.data this,
    List.map_cons, string_mk_data]

theorem splitKey_no_dot (s : String) : ∀ s2 ∈ splitKey s, hasDot s2 = false := by
  intro s2 h2
  simp only [splitKey, List.mem_map] at h2
  obtain ⟨g, hg, hmk⟩ := h2
  rw [← hmk]
  rw [hasDot_false_iff]
  exact splitCharAux_no_sep '.' s.data g hg

theorem splitKey_decompose (k q : String) (srest : List String) (_hk : hasDot k = false)
    (hsplit : splitKey q = k :: srest) (hne : srest ≠ []) :
    ∃ q2, q = k ++ "." ++ q2 ∧ splitKey q2 = srest := by
  obtain ⟨segs0, hs⟩ : ∃ segs0, splitCharAux '.' q.data = segs0 := ⟨_, rfl⟩
  cases segs0 with
  | nil => exact absurd hs (splitCharAux_ne_nil '.' q.data)
  | cons g gs =>
      have hmap : String.mk g :: gs.map String.mk = k :: srest := by
        simpa [splitKey, hs] using hsplit
      have hg : String.mk g = k := (List.cons.injEq _ _ _ _ ▸ hmap).1
      have hgs : gs.map String.mk = srest := (List.cons.injEq _ _ _ _ ▸ hmap).2
      have hgsne : gs ≠ [] := by
        intro he
        rw [he] at hgs
        exact hne (by simpa using hgs.symm)
      refine ⟨String.mk (joinSegs '.' gs), ?_, ?_⟩
      · apply String.ext
        rw [data_append3]
        have hq : q.data = joinSegs '.' (g :: gs) := by
          rw [← hs, joinSegs_splitCharAux]
        rw [hq]
        cases gs with
        | nil => exact absurd rfl hgsne
        | cons g2 gs2 =>
            rw [joinSegs_cons_cons]
            have : k.data = g := by rw [← hg]
            rw [this]
      · have hfree : ∀ g2 ∈ gs, ('.' : Char) ∉ g2 := by
          intro g2 h2
          exact splitCharAux_no_sep '.' q.data g2 (by rw [hs]; simp [h2])
        simp only [splitKey, splitCharAux_joinSegs '.' gs hgsne hfree]
        exact hgs

theorem getKeyF_setKey_self {β : Type} (t : List (String × β)) (k : String) (v : β) :
    getKeyF (setKey t k v) k = some v := by
  induction t with
  | nil => simp [setKey, getKeyF]
  | cons p rest ih =>
      by_cases hp : (p.1 == k) = true
      · simp [setKey, hp, getKeyF]
      · simp [setKey, hp, getKeyF, ih]

theorem getKeyF_setKey_other {β : Type} (t : List (String × β)) (k k2 : String) (v : β)
    (hne : k2 ≠ k) : getKeyF (setKey t k v) k2 = getKeyF t k2 := by
  have hkk2 : (k == k2) = false := beq_eq_false_iff_ne.mpr (Ne.symm hne)
  induction t with
  | nil => simp [setKey, getKeyF, hkk2]
  | cons p rest ih =>
      by_cases hp : (p.1 == k) = true
      · have hpk : p.1 = k := by simpa using hp
        simp [setKey, hp, getKeyF, hpk, hkk2]
      · simp [setKey, hp, getKeyF, ih]

theorem getPath_congr {α : Type} (t1 t2 : List (String × PTree α)) (q0 : String)
    (qs : List String) (h : getKeyF t1 q0 = getKeyF t2 q0) :
    getPath t1 (q0 :: qs) = getPath t2 (q0 :: qs) := by
  cases qs with
  | nil => simp only [getPath]; rw [h]
  | cons b bs => simp only [getPath]; rw [h]

theorem getNode_congr {α : Type} (t1 t2 : List (String × PTree α)) (q0 : String)
    (qs : List String) (h : getKeyF t1 q0 = getKeyF t2 q0) :
    getNode t1 (q0 :: qs) = getNode t2 (q0 :: qs) := by
  simp only [getNode]
  rw [h]

theorem getPath_nil_trie {α : Type} (qs : List String) :
    getPath ([] : List (String × PTree α)) qs = none := by
  cases qs with
  | nil => rfl
  | cons q0 qs' => cases qs' <;> simp [getPath, getKeyF]

theorem getNode_nil_trie {α : Type} (q0 : String) (qs : List String) :
    getNode ([] : List (String × PTree α)) (q0 :: qs) = none := by
  simp [getNode, getKeyF]

theorem getPath_setPath_self {α : Type} (ps : List String) :
    ∀ (t : List (String × PTree α)) (v : α), ps ≠ [] → getPath (setPath t ps v) ps = some v := by
  induction ps with
  | nil => intro t v h; exact absurd rfl h
  | cons k ps' ih =>
      intro t v _
      cases ps' with
      | nil => simp [setPath, getPath, getKeyF_setKey_self]
      | cons a ps'' =>
          simp only [setPath, getPath]
          rw [getKeyF_setKey_self]
          exact ih _ v (by simp)

theorem isPfx_refl (ps : List String) : isPfx ps ps = true := by
  induction ps with
  | nil => rfl
  | cons k ps' ih => simp [isPfx, ih]

theorem getPath_setPath_other {α : Type} (ps : List String) :
    ∀ (t : List (String × PTree α)) (v : α) (qs : List String),
      isPfx ps qs = false → isPfx qs ps = false →
      getPath (setPath t ps v) qs = getPath t qs := by
  induction ps with
  | nil => intro t v qs hpq _; simp [isPfx] at hpq
  | cons k ps' ih =>
      intro t v qs hpq hqp
      cases qs with
      | nil => simp [isPfx] at hqp
      | cons q0 qs' =>
          by_cases hq0 : q0 = k
          · subst hq0
            have hpq' : isPfx ps' qs' = false := by simpa [isPfx] using hpq
            have hqp' : isPfx qs' ps' = false := by simpa [isPfx] using hqp
            cases ps' with
            | nil =>
                cases qs' with
                | nil => simp [isPfx] at hpq
                | cons b qs'' => simp [isPfx] at hpq
            | cons a ps'' =>
                cases qs' with
                | nil => simp [isPfx] at hqp
                | cons b qs'' =>
                    simp only [setPath, getPath]
                    rw [getKeyF_setKey_self]
                    cases hget : getKeyF t q0 with
                    | none =>
                        simp only []
                        rw [ih _ v (b :: qs'') hpq' hqp']
                        exact getPath_nil_trie (b :: qs'')
                    | some tv =>
                        cases tv with
                        | leaf w =>
                            simp only []
                            rw [ih _ v (b :: qs'') hpq' hqp']
                            exact getPath_nil_trie (b :: qs'')
                        | node m =>
                            simp only []
                            exact ih m v (b :: qs'') hpq' hqp'
          · have hne : getKeyF (setPath t (k :: ps') v) q0 = getKeyF t q0 := by
              cases ps' with
              | nil => simp only [setPath]; exact getKeyF_setKey_other t k q0 _ hq0
              | cons a ps'' => simp only [setPath]; exact getKeyF_setKey_other t k q0 _ hq0
            exact getPath_congr _ t q0 qs' hne

theorem getNode_setPath_isSome {α : Type} (ps : List String) :
    ∀ (t : List (String × PTree α)) (v : α) (qs : List String), qs ≠ [] →
      (getNode (setPath t ps v) qs).isSome = true →
      (getNode t qs).isSome = true ∨ (isPfx qs ps = true ∧ qs ≠ ps) := by
  induction ps with
  | nil => intro t v qs _ h; left; simpa [setPath] using h
  | cons k ps' ih =>
      intro t v qs hqs h
      cases qs with
      | nil => exact absurd rfl hqs
      | cons q0 qs' =>
          by_cases hq0 : q0 = k
          · subst hq0
            cases ps' with
            | nil =>
                simp only [setPath, getNode] at h
                rw [getKeyF_setKey_self] at h
                simp at h
            | cons a ps'' =>
                cases hget : getKeyF t q0 with
                | none =>
                    simp only [setPath, hget, getNode] at h
                    rw [getKeyF_setKey_self] at h
                    cases qs' with
                    | nil =>
                        right
                        exact ⟨by simp [isPfx], by simp⟩
                    | cons b qs'' =>
                        rcases ih _ v (b :: qs'') (by simp) h with h3 | h4
                        · rw [getNode_nil_trie] at h3
                          simp at h3
                        · right
                          refine ⟨by simpa [isPfx] using h4.1, ?_⟩
                          intro he
                          injection he with h1 h2
                          exact h4.2 h2
                | some tv =>
                    cases tv with
                    | leaf w =>
                        simp only [setPath, hget, getNode] at h
                        rw [getKeyF_setKey_self] at h
                        cases qs' with
                        | nil =>
                            right
                            exact ⟨by simp [isPfx], by simp⟩
                        | cons b qs'' =>
                            rcases ih _ v (b :: qs'') (by simp) h with h3 | h4
                            · rw [getNode_nil_trie] at h3
                              simp at h3
                            · right
                              refine ⟨by simpa [isPfx] using h4.1, ?_⟩
                              intro he
                              injection he with h1 h2
                              exact h4.2 h2
                    | node m =>
                        simp only [setPath, hget, getNode] at h
                        rw [getKeyF_setKey_self] at h
                        cases qs' with
                        | nil =>
                            right
                            exact ⟨by simp [isPfx], by simp⟩
                        | cons b qs'' =>
                            rcases ih _ v (b :: qs'') (by simp) h with h3 | h4
                            · left
                              simp only [getNode, hget]
                              exact h3
                            · right
                              refine ⟨by simpa [isPfx] using h4.1, ?_⟩
                              intro he
                              injection he with h1 h2
                              exact h4.2 h2
          · have hne : getKeyF (setPath t (k :: ps') v) q0 = getKeyF t q0 := by
              cases ps' with
              | nil => simp only [setPath]; exact getKeyF_setKey_other t k q0 _ hq0
              | cons a ps'' => simp only [setPath]; exact getKeyF_setKey_other t k q0 _ hq0
            left
            rw [getNode_congr _ t q0 qs' hne] at h
            exact h

theorem getPath_setPath_isSome {α : Type} (ps : List String) :
    ∀ (t : List (String × PTree α)) (v : α) (qs : List String),
      (getPath (setPath t ps v) qs).isSome = true →
      (getPath t qs).isSome = true ∨ qs = ps := by
  induction ps with
  | nil => intro t v qs h; left; simpa [setPath] using h
  | cons k ps' ih =>
      intro t v qs h
      cases qs with
      | nil => simp [getPath] at h
      | cons q0 qs' =>
          by_cases hq0 : q0 = k
          · subst hq0
            cases ps' with
            | nil =>
                cases qs' with
                | nil => right; rfl
                | cons b qs'' =>
                    simp only [setPath, getPath] at h
                    rw [getKeyF_setKey_self] at h
                    simp at h
            | cons a ps'' =>
                cases qs' with
                | nil =>
                    simp only [setPath, getPath] at h
                    rw [getKeyF_setKey_self] at h
                    simp at h
                | cons b qs'' =>
                    cases hget : getKeyF t q0 with
                    | none =>
                        simp only [setPath, hget, getPath] at h
                        rw [getKeyF_setKey_self] at h
                        rcases ih _ v (b :: qs'') h with h3 | h4
                        · rw [getPath_nil_trie] at h3
                          simp at h3
                        · right
                          rw [h4]
                    | some tv =>
                        cases tv with
                        | leaf w =>
                            simp only [setPath, hget, getPath] at h
                            rw [getKeyF_setKey_self] at h
                            rcases ih _ v (b :: qs'') h with h3 | h4
                            · rw [getPath_nil_trie] at h3
                              simp at h3
                            · right
                              rw [h4]
                        | node m =>
                            simp only [setPath, hget, getPath] at h
                            rw [getKeyF_setKey_self] at h
                            rcases ih _ v (b :: qs'') h with h3 | h4
                            · left
                              simp only [getPath, hget]
                              exact h3
                            · right
                              rw [h4]
          · have hne : getKeyF (setPath t (k :: ps') v) q0 = getKeyF t q0 := by
              cases ps' with
              | nil => simp only [setPath]; exact getKeyF_setKey_other t k q0 _ hq0
              | cons a ps'' => simp only [setPath]; exact getKeyF_setKey_other t k q0 _ hq0
            left
            rw [getPath_congr _ t q0 qs' hne] at h
            exact h

theorem getPath_setPaths_frame {α : Type} (items : List (List String × α)) :
    ∀ (acc : List (String × PTree α)) (qs : List String),
      (∀ pv ∈ items, isPfx pv.1 qs = false ∧ isPfx qs pv.1 = false) →
      getPath (setPaths items acc) qs = getPath acc qs := by
  induction items with
  | nil => intro acc qs _; rfl
  | cons pv rest ih =>
      intro acc qs hall
      obtain ⟨ps, v⟩ := pv
      simp only [setPaths]
      rw [ih _ qs (fun pv2 h2 => hall pv2 (by simp [h2]))]
      exact getPath_setPath_other ps acc v qs (hall (ps, v) (by simp)).1 (hall (ps, v) (by simp)).2

theorem getPath_setPaths_mem {α : Type} (items : List (List String × α)) :
    ∀ (acc : List (String × PTree α)),
      items.Pairwise (fun a b => indepP a.1 b.1) →
      (∀ pv ∈ items, pv.1 ≠ []) →
      ∀ pv ∈ items, getPath (setPaths items acc) pv.1 = some pv.2 := by
  induction items with
  | nil => simp
  | cons hd rest ih =>
      intro acc hpair hne pv hmem
      obtain ⟨ps, v⟩ := hd
      rw [List.pairwise_cons] at hpair
      rcases List.mem_cons.mp hmem with h1 | h2
      · subst h1
        simp only [setPaths]
        rw [getPath_setPaths_frame rest _ ps
          (fun pv2 h2 => ⟨(hpair.1 pv2 h2).2, (hpair.1 pv2 h2).1⟩)]
        exact getPath_setPath_self ps acc v (hne (ps, v) hmem)
      · exact ih _ hpair.2 (fun pv2 hm => hne pv2 (by simp [hm])) pv h2

theorem getNode_setPaths_isSome {α : Type} (items : List (List String × α)) :
    ∀ (acc : List (String × PTree α)) (qs : List String), qs ≠ [] →
      (getNode (setPaths items acc) qs).isSome = true →
      (getNode acc qs).isSome = true ∨ ∃ pv ∈ items, isPfx qs pv.1 = true ∧ qs ≠ pv.1 := by
  induction items with
  | nil => intro acc qs _ h; left; exact h
  | cons hd rest ih =>
      intro acc qs hqs h
      obtain ⟨ps, v⟩ := hd
      simp only [setPaths] at h
      rcases ih _ qs hqs h with h1 | h2
      · rcases getNode_setPath_isSome ps acc v qs hqs h1 with h3 | h4
        · left; exact h3
        · right; exact ⟨(ps, v), by simp, h4⟩
      · right
        obtain ⟨pv2, hm, hp⟩ := h2
        exact ⟨pv2, by simp [hm], hp⟩

theorem getPath_setPaths_isSome {α : Type} (items : List (List String × α)) :
    ∀ (acc : List (String × PTree α)) (qs : List String),
      (getPath (setPaths items acc) qs).isSome = true →
      (getPath acc qs).isSome = true ∨ ∃ pv ∈ items, qs = pv.1 := by
  induction items with
  | nil => intro acc qs h; left; exact h
  | cons hd rest ih =>
      intro acc qs h
      obtain ⟨ps, v⟩ := hd
      simp only [setPaths] at h
      rcases ih _ qs h with h1 | h2
      · rcases getPath_setPath_isSome ps acc v qs h1 with h3 | h4
        · left; exact h3
        · right; exact ⟨(ps, v), by simp, h4⟩
      · right
        obtain ⟨pv2, hm, hp⟩ := h2
        exact ⟨pv2, by simp [hm], hp⟩

theorem any_setKey {β : Type} (t : List (String × β)) (k k3 : String) (v : β) :
    ((setKey t k v).any (fun p => p.1 == k3)) = (t.any (fun p => p.1 == k3) || (k == k3)) := by
  induction t with
  | nil => simp [setKey]
  | cons p rest ih =>
      by_cases hp : (p.1 == k) = true
      · have hpk : p.1 = k := by simpa using hp
        simp only [setKey, hp, if_pos, List.any_cons, hpk]
        cases h3 : k == k3 <;> cases h4 : rest.any (fun p => p.1 == k3) <;> simp [h3, h4]
      · simp only [setKey, hp, Bool.false_eq_true, if_false, List.any_cons, ih]
        cases p.1 == k3 <;> cases k == k3 <;> cases rest.any (fun p => p.1 == k3) <;> simp

theorem wfF_getKey {α : Type} (t : List (String × PTree α)) (k : String) (tv : PTree α)
    (h : wfF t = true) (hget : getKeyF t k = some tv) : wfT tv = true := by
  induction t with
  | nil => simp [getKeyF] at hget
  | cons p rest ih =>
      obtain ⟨k1, tv1⟩ := p
      by_cases hk : (k1 == k) = true
      · simp only [getKeyF, hk, if_pos, Option.some.injEq] at hget
        subst hget
        cases tv1 with
        | leaf w => simp [wfT]
        | node m =>
            simp only [wfF, Bool.and_eq_true] at h
            simpa [wfT] using h.1.2
      · simp only [getKeyF, hk, Bool.false_eq_true, if_false] at hget
        cases tv1 with
        | leaf w =>
            simp only [wfF, Bool.and_eq_true] at h
            exact ih h.2 hget
        | node m =>
            simp only [wfF, Bool.and_eq_true] at h
            exact ih h.2 hget

theorem wfF_setKey {α : Type} (t : List (String × PTree α)) (k : String) (v : PTree α)
    (h : wfF t = true) (hk : hasDot k = false) (hv : wfT v = true) :
    wfF (setKey t k v) = true := by
  induction t with
  | nil =>
      cases v with
      | leaf w => simp [setKey, wfF, hk]
      | node m => simp only [setKey, wfF, List.any_nil]; simp [hk, wfT] at hv ⊢; exact hv
  | cons p rest ih =>
      obtain ⟨k1, tv1⟩ := p
      by_cases hp : (k1 == k) = true
      · have hpk : k1 = k := by simpa using hp
        subst hpk
        cases tv1 with
        | leaf w =>
            simp only [wfF, Bool.and_eq_true, Bool.not_eq_true'] at h
            cases v with
            | leaf w2 => simp [setKey, hp, wfF, hk, h.1.2, h.2]
            | node m2 =>
                simp only [wfT] at hv
                simp [setKey, hp, wfF, hk, h.1.2, h.2, hv]
        | node m =>
            simp only [wfF, Bool.and_eq_true, Bool.not_eq_true'] at h
            cases v with
            | leaf w2 => simp [setKey, hp, wfF, hk, h.1.1.2, h.2]
            | node m2 =>
                simp only [wfT] at hv
                simp [setKey, hp, wfF, hk, h.1.1.2, h.2, hv]
      · have hkk1 : (k == k1) = false := by
          by_cases he : k = k1
          · exact absurd (by simp [he]) hp
          · exact beq_eq_false_iff_ne.mpr he
        cases tv1 with
        | leaf w =>
            simp only [wfF, Bool.and_eq_true, Bool.not_eq_true'] at h
            simp only [setKey, hp, Bool.false_eq_true, if_false, wfF, Bool.and_eq_true,
              Bool.not_eq_true']
            refine ⟨⟨h.1.1, ?_⟩, ih h.2⟩
            rw [any_setKey, h.1.2, hkk1]
            rfl
        | node m =>
            simp only [wfF, Bool.and_eq_true, Bool.not_eq_true'] at h
            simp only [setKey, hp, Bool.false_eq_true, if_false, wfF, Bool.and_eq_true,
              Bool.not_eq_true']
            refine ⟨⟨⟨h.1.1.1, ?_⟩, h.1.2⟩, ih h.2⟩
            rw [any_setKey, h.1.1.2, hkk1]
            rfl

theorem wfF_setPath {α : Type} (ps : List String) :
    ∀ (t : List (String × PTree α)) (v : α), wfF t = true →
      (∀ s ∈ ps, hasDot s = false) → wfF (setPath t ps v) = true := by
  induction ps with
  | nil => intro t v ht _; simpa [setPath] using ht
  | cons k ps' ih =>
      intro t v ht hfree
      have hk : hasDot k = false := hfree k (by simp)
      cases ps' with
      | nil => exact wfF_setKey t k (PTree.leaf v) ht hk (by simp [wfT])
      | cons a ps'' =>
          simp only [setPath]
          apply wfF_setKey t k _ ht hk
          simp only [wfT]
          have hsub : wfF (match getKeyF t k with
              | some (PTree.node m) => m
              | _ => []) = true := by
            cases hget : getKeyF t k with
            | none => simp [wfF]
            | some tv =>
                cases tv with
                | leaf w => simp [wfF]
                | node m => simpa [wfT] using wfF_getKey t k (PTree.node m) ht hget
          exact ih _ v hsub (fun s hs => hfree s (by simp [hs]))

theorem wfF_setPaths {α : Type} (items : List (List String × α)) :
    ∀ (acc : List (String × PTree α)), wfF acc = true →
      (∀ pv ∈ items, ∀ s ∈ pv.1, hasDot s = false) →
      wfF (setPaths items acc) = true := by
  induction items with
  | nil => intro acc h _; exact h
  | cons hd rest ih =>
      intro acc h hall
      obtain ⟨ps, v⟩ := hd
      simp only [setPaths]
      exact ih _ (wfF_setPath ps acc v h (hall (ps, v) (by simp)))
        (fun pv hm s hs => hall pv (by simp [hm]) s hs)

theorem getKeyF_cons_self {β : Type} (k : String) (v : β) (rest : List (String × β)) :
    getKeyF ((k, v) :: rest) k = some v := by
  simp [getKeyF]

theorem getKeyF_cons_ne {β : Type} (k q : String) (v : β) (rest : List (String × β))
    (h : (k == q) = false) : getKeyF ((k, v) :: rest) q = getKeyF rest q := by
  simp [getKeyF, h]

theorem getPath_single {α : Type} (t : List (String × PTree α)) (k : String) :
    getPath t [k] = match getKeyF t k with
      | some (PTree.leaf v) => some v
      | _ => none := rfl

theorem getPath_multi {α : Type} (t : List (String × PTree α)) (k b : String)
    (qs : List String) :
    getPath t (k :: b :: qs) = match getKeyF t k with
      | some (PTree.node m) => getPath m (b :: qs)
      | _ => none := rfl

theorem getPath_cons_node {α : Type} (k : String) (m : List (String × PTree α))
    (rest : List (String × PTree α)) (b : String) (qs : List String) :
    getPath ((k, PTree.node m) :: rest) (k :: b :: qs) = getPath m (b :: qs) := by
  rw [getPath_multi, getKeyF_cons_self]

theorem getPath_multi_none {α : Type} (t : List (String × PTree α)) (k b : String)
    (qs : List String) (h : getKeyF t k = none) : getPath t (k :: b :: qs) = none := by
  rw [getPath_multi, h]

theorem getPath_single_node {α : Type} (k : String) (m : List (String × PTree α))
    (rest : List (String × PTree α)) :
    getPath ((k, PTree.node m) :: rest) [k] = none := by
  rw [getPath_single, getKeyF_cons_self]

theorem getPath_single_none {α : Type} (t : List (String × PTree α)) (k : String)
    (h : getKeyF t k = none) : getPath t [k] = none := by
  rw [getPath_single, h]

theorem getKeyF_eq_none_of_all_ne {β : Type} (l : List (String × β)) (q : String)
    (h : ∀ p ∈ l, p.1 ≠ q) : getKeyF l q = none := by
  induction l with
  | nil => rfl
  | cons p rest ih =>
      have hp : (p.1 == q) = false := beq_eq_false_iff_ne.mpr (h p (by simp))
      simp only [getKeyF, hp, Bool.false_eq_true, if_false]
      exact ih (fun p2 h2 => h p2 (by simp [h2]))

theorem getKeyF_eq_none_of_any_false {β : Type} (l : List (String × β)) (q : String)
    (h : (l.any (fun p => p.1 == q)) = false) : getKeyF l q = none := by
  apply getKeyF_eq_none_of_all_ne
  intro p hp he
  rw [List.any_eq_false] at h
  exact absurd (by simp [he]) (h p hp)

theorem getKeyF_append {β : Type} (l1 l2 : List (String × β)) (q : String) :
    getKeyF (l1 ++ l2) q = match getKeyF l1 q with
      | some v => some v
      | none => getKeyF l2 q := by
  induction l1 with
  | nil => simp [getKeyF]
  | cons p rest ih =>
      by_cases hp : (p.1 == q) = true
      · simp [getKeyF, hp]
      · simp only [List.cons_append, getKeyF, hp, Bool.false_eq_true, if_false]
        exact ih

theorem dot_append_inj (k a b : String) (h : k ++ "." ++ a = k ++ "." ++ b) : a = b := by
  have hd := congrArg String.data h
  rw [data_append3, data_append3] at hd
  have := List.append_cancel_left hd
  injection this with h1 h2
  exact String.ext h2

theorem getKeyF_map_pre {α : Type} (k : String) (l : List (String × α)) (q : String) :
    getKeyF (l.map (fun p => (k ++ "." ++ p.1, p.2))) (k ++ "." ++ q) = getKeyF l q := by
  induction l with
  | nil => rfl
  | cons p rest ih =>
      by_cases hpq : p.1 = q
      · simp [getKeyF, hpq]
      · have h1 : (k ++ "." ++ p.1 == k ++ "." ++ q) = false :=
          beq_eq_false_iff_ne.mpr (fun he => hpq (dot_append_inj k p.1 q he))
        have h2 : (p.1 == q) = false := beq_eq_false_iff_ne.mpr hpq
        simp only [List.map_cons, getKeyF, h1, h2, Bool.false_eq_true, if_false]
        exact ih

theorem getKeyF_flattenFields {α : Type} (t : List (String × PTree α)) :
    wfF t = true → ∀ q, getKeyF (flattenFields t) q = getPath t (splitKey q) := by
  induction t using flattenFields.induct with
  | case1 =>
      intro _ q
      cases hsq : splitKey q with
      | nil => exact absurd hsq (splitKey_ne_nil q)
      | cons s0 srest =>
          rw [flattenFields]
          rw [getPath_nil_trie]
          rfl
  | case2 k v rest ih =>
      intro hwf q
      simp only [wfF, Bool.and_eq_true, Bool.not_eq_true'] at hwf
      obtain ⟨⟨hk, hany⟩, hwrest⟩ := hwf
      rw [flattenFields]
      by_cases hqk : q = k
      · subst hqk
        rw [getKeyF_cons_self]
        rw [splitKey_of_not_hasDot q hk, getPath_single, getKeyF_cons_self]
      · have hbk : (k == q) = false := beq_eq_false_iff_ne.mpr (fun he => hqk he.symm)
        rw [getKeyF_cons_ne k q v _ hbk, ih hwrest q]
        cases hsq : splitKey q with
        | nil => exact absurd hsq (splitKey_ne_nil q)
        | cons s0 srest =>
            by_cases hs0 : s0 = k
            · subst hs0
              cases srest with
              | nil =>
                  exfalso
                  apply hqk
                  apply splitKey_inj
                  rw [hsq, splitKey_of_not_hasDot s0 hk]
              | cons b srest2 =>
                  rw [getPath_multi, getPath_multi, getKeyF_cons_self]
                  rw [getKeyF_eq_none_of_any_false rest s0 hany]
            · have hbs : (k == s0) = false := beq_eq_false_iff_ne.mpr (fun he => hs0 he.symm)
              exact (getPath_congr _ _ s0 srest (getKeyF_cons_ne k s0 _ rest hbs)).symm
  | case3 k m rest ihm ihrest =>
      intro hwf q
      simp only [wfF, Bool.and_eq_true, Bool.not_eq_true'] at hwf
      obtain ⟨⟨⟨hk, hany⟩, hwm⟩, hwrest⟩ := hwf
      rw [flattenFields]
      cases hsq : splitKey q with
      | nil => exact absurd hsq (splitKey_ne_nil q)
      | cons s0 srest =>
          by_cases hs0 : s0 = k
          · subst hs0
            cases srest with
            | nil =>
                have hqk : q = s0 := by
                  apply splitKey_inj
                  rw [hsq, splitKey_of_not_hasDot s0 hk]
                subst hqk
                rw [getKeyF_append]
                rw [getKeyF_eq_none_of_all_ne
                  ((flattenFields m).map (fun p => (q ++ "." ++ p.1, p.2))) q
                  (by
                    intro p hp he
                    obtain ⟨p0, hp0, hpe⟩ := List.mem_map.mp hp
                    have hsplit : splitKey p.1 = q :: splitKey p0.1 := by
                      rw [← hpe]
                      exact splitKey_cons_of_not_hasDot q p0.1 hk
                    rw [he] at hsplit
                    rw [splitKey_of_not_hasDot q hk] at hsplit
                    injection hsplit with h1 h2
                    exact splitKey_ne_nil p0.1 h2.symm)]
                rw [ihrest hwrest q, hsq]
                rw [getPath_single_none rest q (getKeyF_eq_none_of_any_false rest q hany)]
                rw [getPath_single_node q m rest]
            | cons b srest2 =>
                obtain ⟨q2, hq2eq, hq2split⟩ :=
                  splitKey_decompose s0 q (b :: srest2) hk hsq (by simp)
                rw [getKeyF_append]
                have hmap : getKeyF ((flattenFields m).map (fun p => (s0 ++ "." ++ p.1, p.2))) q =
                    getPath m (b :: srest2) := by
                  rw [hq2eq, getKeyF_map_pre, ihm hwm q2, hq2split]
                rw [hmap]
                rw [getPath_cons_node s0 m rest b srest2]
                cases hpm : getPath m (b :: srest2) with
                | some w => rfl
                | none =>
                    rw [ihrest hwrest q, hsq]
                    rw [getPath_multi_none rest s0 b srest2
                      (getKeyF_eq_none_of_any_false rest s0 hany)]
          · rw [getKeyF_append]
            rw [getKeyF_eq_none_of_all_ne
              ((flattenFields m).map (fun p => (k ++ "." ++ p.1, p.2))) q
              (by
                intro p hp he
                obtain ⟨p0, hp0, hpe⟩ := List.mem_map.mp hp
                have hsplit : splitKey p.1 = k :: splitKey p0.1 := by
                  rw [← hpe]
                  exact splitKey_cons_of_not_hasDot k p0.1 hk
                rw [he, hsq] at hsplit
                injection hsplit with h1 h2
                exact hs0 h1)]
            rw [ihrest hwrest q, hsq]
            have hbs : (k == s0) = false := beq_eq_false_iff_ne.mpr (fun he => hs0 he.symm)
            exact (getPath_congr _ _ s0 srest (getKeyF_cons_ne k s0 _ rest hbs)).symm

theorem getNode_single {α : Type} (t : List (String × PTree α)) (k : String) :
    getNode t [k] = match getKeyF t k with
      | some (PTree.node m) => some m
      | _ => none := rfl

theorem nestLoop_eq_setPaths {α : Type} (flat : List (String × α)) :
    ∀ (acc : List (String × PTree α)),
      (flat.map (fun kv => splitKey kv.1)).Pairwise indepP →
      (∀ kv ∈ flat, hasDot kv.1 = false → (getNode acc [kv.1]).isSome = false) →
      CsvToJsonApp.nestLoop flat acc =
        Except.ok (setPaths (flat.map (fun kv => (splitKey kv.1, kv.2))) acc) := by
  induction flat with
  | nil => intro acc _ _; rfl
  | cons kv rest ih =>
      intro acc hpair hinv
      obtain ⟨key, value⟩ := kv
      rw [List.map_cons, List.pairwise_cons] at hpair
      have hinv2 : ∀ kv2 ∈ rest, hasDot kv2.1 = false →
          (getNode (setPath acc (splitKey key) value) [kv2.1]).isSome = false := by
        intro kv2 hm hd2
        rcases Bool.eq_false_or_eq_true
          ((getNode (setPath acc (splitKey key) value) [kv2.1]).isSome) with ht | hf
        swap
        · exact hf
        · exfalso
          rcases getNode_setPath_isSome (splitKey key) acc value [kv2.1] (by simp) ht with h1 | h2
          · rw [hinv kv2 (by simp [hm]) hd2] at h1
            exact absurd h1 (by simp)
          · have hsk2 : splitKey kv2.1 = [kv2.1] := splitKey_of_not_hasDot kv2.1 hd2
            have hindep : indepP (splitKey key) (splitKey kv2.1) :=
              hpair.1 (splitKey kv2.1) (List.mem_map.mpr ⟨kv2, hm, rfl⟩)
            rw [hsk2] at hindep
            rw [hindep.2] at h2
            exact absurd h2.1 (by simp)
      by_cases hd : hasDot key
      · simp only [CsvToJsonApp.nestLoop, hd, if_pos, List.map_cons, setPaths]
        exact ih _ hpair.2 hinv2
      · have hdf : hasDot key = false := by simpa using hd
        have hnode : (getNode acc [key]).isSome = false := hinv (key, value) (by simp) hdf
        have hstep : setPath acc (splitKey key) value = setKey acc key (PTree.leaf value) := by
          rw [splitKey_of_not_hasDot key hdf]
          rfl
        cases hget : getKeyF acc key with
        | none =>
            simp only [CsvToJsonApp.nestLoop, hd, Bool.false_eq_true, if_false, hget,
              List.map_cons, setPaths]
            rw [← hstep]
            exact ih _ hpair.2 hinv2
        | some tv =>
            cases tv with
            | leaf w =>
                simp only [CsvToJsonApp.nestLoop, hd, Bool.false_eq_true, if_false, hget,
                  List.map_cons, setPaths]
                rw [← hstep]
                exact ih _ hpair.2 hinv2
            | node m =>
                exfalso
                rw [getNode_single, hget] at hnode
                exact absurd hnode (by simp)

theorem getKeyF_some_mem {β : Type} (l : List (String × β)) (q : String) (v : β)
    (h : getKeyF l q = some v) : (q, v) ∈ l := by
  induction l with
  | nil => simp [getKeyF] at h
  | cons p rest ih =>
      by_cases hp : (p.1 == q) = true
      · have hpq : p.1 = q := by simpa using hp
        simp only [getKeyF, hp, if_pos, Option.some.injEq] at h
        subst h
        rw [← hpq]
        exact List.mem_cons_self p rest
      · simp only [getKeyF, hp, Bool.false_eq_true, if_false] at h
        exact List.mem_cons_of_mem p (ih h)

theorem getKeyF_none_not_mem {β : Type} (l : List (String × β)) (q : String)
    (h : getKeyF l q = none) : ∀ kv ∈ l, kv.1 ≠ q := by
  induction l with
  | nil => simp
  | cons p rest ih =>
      by_cases hp : (p.1 == q) = true
      · simp [getKeyF, hp] at h
      · simp only [getKeyF, hp, Bool.false_eq_true, if_false] at h
        intro kv hm
        rcases List.mem_cons.mp hm with h1 | h2
        · subst h1
          exact fun he => absurd (by simp [he]) hp
        · exact ih h kv h2

/-- C2.  The round-trip law: on a flat record whose split key paths are
pairwise independent, that is no path is a prefix of another, the apps
nesting succeeds and the spec-modelled flatten of the result is, as a
dictionary, exactly the original record: lookup agrees on every key. -/
theorem c2_roundtrip {α : Type} (r : List (String × α))
    (hpair : (r.map (fun kv => splitKey kv.1)).Pairwise indepP) :
    ∃ t, CsvToJsonApp._nest_flat_record r = Except.ok t ∧
      ∀ q, getKeyF (flattenFields t) q = getKeyF r q := by
  have hok : CsvToJsonApp._nest_flat_record r =
      Except.ok (setPaths (r.map (fun kv => (splitKey kv.1, kv.2))) []) :=
    nestLoop_eq_setPaths r [] hpair (by intro kv _ _; rfl)
  refine ⟨setPaths (r.map (fun kv => (splitKey kv.1, kv.2))) [], hok, ?_⟩
  intro q
  have hwf : wfF (setPaths (r.map (fun kv => (splitKey kv.1, kv.2))) []) = true := by
    apply wfF_setPaths _ _ (by simp [wfF])
    intro pv hm s hs
    obtain ⟨kv, _, he⟩ := List.mem_map.mp hm
    rw [← he] at hs
    exact splitKey_no_dot kv.1 s hs
  rw [getKeyF_flattenFields _ hwf q]
  have hpair2 : (r.map (fun kv => (splitKey kv.1, kv.2))).Pairwise
      (fun a b => indepP a.1 b.1) := by
    rw [List.pairwise_map]
    rw [List.pairwise_map] at hpair
    exact hpair
  have hne2 : ∀ pv ∈ r.map (fun kv => (splitKey kv.1, kv.2)), pv.1 ≠ [] := by
    intro pv hm
    obtain ⟨kv, _, he⟩ := List.mem_map.mp hm
    rw [← he]
    exact splitKey_ne_nil kv.1
  cases hq : getKeyF r q with
  | some v =>
      have hmem : (q, v) ∈ r := getKeyF_some_mem r q v hq
      have hmem2 : ((splitKey q, v) : List String × α) ∈
          r.map (fun kv => (splitKey kv.1, kv.2)) :=
        List.mem_map.mpr ⟨(q, v), hmem, rfl⟩
      exact getPath_setPaths_mem _ [] hpair2 hne2 (splitKey q, v) hmem2
  | none =>
      cases hgp : getPath (setPaths (r.map (fun kv => (splitKey kv.1, kv.2))) []) (splitKey q) with
      | none => rfl
      | some w =>
          exfalso
          have hs : (getPath (setPaths (r.map (fun kv => (splitKey kv.1, kv.2))) [])
              (splitKey q)).isSome = true := by
            rw [hgp]; rfl
          rcases getPath_setPaths_isSome _ [] (splitKey q) hs with h1 | h2
          · rw [getPath_nil_trie] at h1
            exact absurd h1 (by simp)
          · obtain ⟨pv, hm, hqe⟩ := h2
            obtain ⟨kv, hkv, he⟩ := List.mem_map.mp hm
            have : splitKey q = splitKey kv.1 := by
              rw [hqe, ← he]
            have hqk : q = kv.1 := splitKey_inj q kv.1 this
            exact getKeyF_none_not_mem r q hq kv hkv hqk.symm

/-- C2 witness: a concrete disjoint record round-trips; the pairwise
independence hypothesis is discharged by evaluation. -/
theorem c2_roundtrip_witness :
    ((([("name", "Alice"), ("address.city", "NYC"), ("address.zip", "10001")] :
        List (String × String)).map (fun kv => splitKey kv.1)).Pairwise indepP) ∧
    (∃ t, CsvToJsonApp._nest_flat_record
        ([("name", "Alice"), ("address.city", "NYC"), ("address.zip", "10001")] :
          List (String × String)) = Except.ok t ∧
      ∀ q, getKeyF (flattenFields t) q =
        getKeyF ([("name", "Alice"), ("address.city", "NYC"), ("address.zip", "10001")] :
          List (String × String)) q) :=
  ⟨by decide, c2_roundtrip _ (by decide)⟩
